import Mathlib

/-!
# Verification of the Shamir secret-sharing primitive

Shallow embedding of `src/security/prevention/shamir_sharing.py`.

Python big integers are modelled as `Nat` (all values arising in the code are
nonnegative); the signed intermediate quantities of Lagrange interpolation are
modelled as `Int` with the Python `%` being `Int.emod` (both return a value in
`[0, p)` for a positive modulus). Fallible operations return `Except`; each
error constructor corresponds to one `raise` site of the source. The calls to
`secrets.randbelow` are modelled by an explicit tape of pre-drawn values.
-/

/-- One error constructor per `raise` site (Python `ValueError` /
`OverflowError`) reachable from the embedded code. -/
inductive ShamirError where
  /-- `__init__`: "Threshold cannot exceed total shares". -/
  | thresholdExceedsTotal
  /-- `split_secret`: "Secret too large for prime". -/
  | secretTooLarge
  /-- `split_secret`: "Need {n} node IDs". -/
  | wrongNodeIdCount
  /-- `_lagrange_interpolation`: "Need at least {k} shares". -/
  | insufficientShares
  /-- `pow(denominator, -1, p)` raises when the base is not invertible. -/
  | notInvertible
  /-- `int.to_bytes` raises `OverflowError` when the value does not fit. -/
  | overflow
  deriving DecidableEq

/-- The `SecretShare` dataclass. -/
structure SecretShare where
  share_id : Nat
  share_value : Nat
  node_id : String
  deriving DecidableEq

/-- Placeholder share used as the default value of list lookups in statements
(never actually selected when indices are in bounds). -/
def dfltShare : SecretShare :=
  ⟨0, 0, ""⟩

/-- The state of a `ShamirSecretSharing` object (set in `__init__`, never
mutated afterwards). -/
structure ShamirSecretSharing where
  threshold : Nat
  total_shares : Nat
  prime : Nat
  deriving DecidableEq

/-- The default modulus of `__init__`: the literal constant from the source
(the Mersenne prime `2^521 - 1`). -/
def ShamirSecretSharing.defaultPrime : Nat :=
  6864797660130609714981900799081393217269435300143305409394463459185543183397656052122559640661454554977296311391480858037121987999716643812574028291115057151

/-- `__init__(threshold, total_shares, prime)`: raises iff
`threshold > total_shares`, otherwise stores the parameters, the modulus
falling back to the default prime when the argument is falsy
(`self.prime = prime or <default>`; the falsy integers None and 0 are both
modelled by the `Nat` value 0). -/
def ShamirSecretSharing.mk? (threshold total_shares prime : Nat) :
    Except ShamirError ShamirSecretSharing :=
  if threshold > total_shares then .error .thresholdExceedsTotal
  else .ok ⟨threshold, total_shares,
    if prime = 0 then ShamirSecretSharing.defaultPrime else prime⟩

/-- `_generate_polynomial(secret)`: the secret followed by `threshold - 1`
draws of `secrets.randbelow(prime)`, the draws taken from the tape `randoms`. -/
def ShamirSecretSharing.generate_polynomial (s : ShamirSecretSharing)
    (secret : Nat) (randoms : List Nat) : List Nat :=
  secret :: randoms.take (s.threshold - 1)

/-- The loop body of `_evaluate_polynomial`:
`result = (result + coef * pow(x, i, prime)) % prime` over the coefficients,
`i` being the enumeration index. -/
def ShamirSecretSharing.evalLoop (p x : Nat) :
    List Nat → Nat → Nat → Nat
  | [], _, result => result
  | coef :: rest, i, result =>
      ShamirSecretSharing.evalLoop p x rest (i + 1)
        ((result + coef * (x ^ i % p)) % p)

/-- `_evaluate_polynomial(coefficients, x)`. -/
def ShamirSecretSharing.evaluate_polynomial (s : ShamirSecretSharing)
    (coefficients : List Nat) (x : Nat) : Nat :=
  ShamirSecretSharing.evalLoop s.prime x coefficients 0 0

/-- `int.from_bytes(secret, byteorder=big)`. -/
def bytesToInt (secret : List Nat) : Nat :=
  secret.foldl (fun acc b => acc * 256 + b) 0

/-- Big-endian digits of `v` in exactly `len` bytes (the value of
`v.to_bytes(len, big)` when it does not overflow). -/
def natToBytes : Nat → Nat → List Nat
  | _, 0 => []
  | v, len + 1 => natToBytes (v / 256) len ++ [v % 256]

/-- `v.to_bytes(len, byteorder=big)`: raises `OverflowError` iff
`v ≥ 256 ^ len`. -/
def intToBytes (v len : Nat) : Except ShamirError (List Nat) :=
  if 256 ^ len ≤ v then .error .overflow else .ok (natToBytes v len)

/-- `split_secret(secret, node_ids)`; `randoms` is the tape feeding
`_generate_polynomial`. -/
def ShamirSecretSharing.split_secret (s : ShamirSecretSharing)
    (secret : List Nat) (node_ids : Option (List String)) (randoms : List Nat) :
    Except ShamirError (List SecretShare) :=
  let secret_int := bytesToInt secret
  if s.prime ≤ secret_int then .error .secretTooLarge
  else
    let coefficients := s.generate_polynomial secret_int randoms
    match node_ids with
    | none =>
        .ok ((List.range s.total_shares).map (fun i =>
          ⟨i + 1, s.evaluate_polynomial coefficients (i + 1),
            "node_" ++ toString (i + 1)⟩))
    | some ids =>
        if ids.length ≠ s.total_shares then .error .wrongNodeIdCount
        else
          .ok ((List.range s.total_shares).map (fun i =>
            ⟨i + 1, s.evaluate_polynomial coefficients (i + 1),
              ids.getD i ""⟩))

/-- `pow(d, -1, p)`: the unique inverse of `d` modulo `p` in `[0, p)`, or
failure when `d` is not invertible (searched directly from the defining
property; the Python result is uniquely characterised by it). -/
def modInverse (d : Int) (p : Nat) : Option Nat :=
  (List.range p).find? (fun x => (d * (x : Int)) % (p : Int) == 1 % (p : Int))

/-- One iteration of the inner loop of `_lagrange_interpolation`: for the
enumerated share `jsh`, when its position differs from `i`, update
`numerator = (numerator * (-share_j.share_id)) % prime` and
`denominator = (denominator * (share_i.share_id - share_j.share_id)) % prime`
(Python `%` = `Int.emod`). -/
def ShamirSecretSharing.numDenStep (s : ShamirSecretSharing)
    (share_i : SecretShare) (i : Nat) (nd : Int × Int)
    (jsh : Nat × SecretShare) : Int × Int :=
  if i ≠ jsh.1 then
    ((nd.1 * (-(jsh.2.share_id : Int))) % (s.prime : Int),
     (nd.2 * ((share_i.share_id : Int) - (jsh.2.share_id : Int))) % (s.prime : Int))
  else nd

/-- The inner loop of `_lagrange_interpolation` for the share at enumeration
index `i`: folds `(numerator, denominator)` over all enumerated shares. -/
def ShamirSecretSharing.numDenLoop (s : ShamirSecretSharing)
    (shs : List SecretShare) (i : Nat) (share_i : SecretShare) : Int × Int :=
  shs.enum.foldl (s.numDenStep share_i i) (1, 1)

/-- The outer loop of `_lagrange_interpolation`: for each enumerated share,
compute the Lagrange coefficient (failing like `pow(d, -1, p)` when the
denominator is not invertible) and accumulate
`secret = (secret + share_value * coefficient) % prime`. -/
def ShamirSecretSharing.lagrangeLoop (s : ShamirSecretSharing)
    (shs : List SecretShare) :
    List (Nat × SecretShare) → Nat → Except ShamirError Nat
  | [], secret => .ok secret
  | (i, share_i) :: rest, secret =>
      let nd := s.numDenLoop shs i share_i
      match modInverse nd.2 s.prime with
      | none => .error .notInvertible
      | some dinv =>
          ShamirSecretSharing.lagrangeLoop s shs rest
            ((secret + share_i.share_value *
              (((nd.1 * (dinv : Int)) % (s.prime : Int)).toNat)) % s.prime)

/-- `_lagrange_interpolation(shares)`. -/
def ShamirSecretSharing.lagrange_interpolation (s : ShamirSecretSharing)
    (shares : List SecretShare) : Except ShamirError Nat :=
  if shares.length < s.threshold then .error .insufficientShares
  else
    let shs := shares.take s.threshold
    s.lagrangeLoop shs shs.enum 0

/-- `reconstruct_secret(shares, secret_length)`. -/
def ShamirSecretSharing.reconstruct_secret (s : ShamirSecretSharing)
    (shares : List SecretShare) (secret_length : Nat) :
    Except ShamirError (List Nat) :=
  match s.lagrange_interpolation shares with
  | .error e => .error e
  | .ok secret_int => intToBytes secret_int secret_length

/-- `verify_share(share)`. -/
def ShamirSecretSharing.verify_share (s : ShamirSecretSharing)
    (share : SecretShare) : Bool :=
  decide (1 ≤ share.share_id) && decide (share.share_id ≤ s.total_shares) &&
    decide (share.share_value < s.prime)

/-- Plain (un-reduced) polynomial value `c0 + c1 * x + ... + c(k-1) * x^(k-1)`
of a coefficient list, used to state what the code evaluation computes. -/
def polyVal : List Nat → Nat → Nat
  | [], _ => 0
  | c :: cs, x => c + polyVal cs x * x

/-- Modelled from the spec: "`evaluate(coefficients, x) -> value`:
Horner-method evaluation mod p" — the spec-side definition compared with the
code function `_evaluate_polynomial` in the refinement claim. -/
def hornerEvalSpec (p : Nat) (coefficients : List Nat) (x : Nat) : Nat :=
  coefficients.foldr (fun coef acc => (coef + acc * x) % p) 0

/-- The field element contributed to the numerator product of the Lagrange
coefficient at enumeration position `i` by the enumerated share `e` (`1` when
`e` sits at position `i` itself). -/
def lagNumTerm (p i : Nat) (e : Nat × SecretShare) : ZMod p :=
  if i = e.1 then 1 else -(e.2.share_id : ZMod p)

/-- The field element contributed to the denominator product of the Lagrange
coefficient of `share_i` at enumeration position `i` by the enumerated share
`e`. -/
def lagDenTerm (p : Nat) (share_i : SecretShare) (i : Nat)
    (e : Nat × SecretShare) : ZMod p :=
  if i = e.1 then 1 else ((share_i.share_id : ZMod p) - (e.2.share_id : ZMod p))

/-! ## Basic lemmas about the evaluation loop -/

theorem ShamirSecretSharing.evalLoop_eq (p x : Nat) (cs : List Nat) :
    ∀ (i a : Nat), ShamirSecretSharing.evalLoop p x cs i (a % p) =
      (a + polyVal cs x * x ^ i) % p := by
  induction cs with
  | nil => intro i a; simp [ShamirSecretSharing.evalLoop, polyVal]
  | cons c cs ih =>
    intro i a
    have h1 : (a % p + c * (x ^ i % p)) % p = (a + c * x ^ i) % p :=
      (Nat.mod_modEq a p).add ((Nat.ModEq.refl c).mul (Nat.mod_modEq (x ^ i) p))
    have h2 : ShamirSecretSharing.evalLoop p x (c :: cs) i (a % p) =
        ShamirSecretSharing.evalLoop p x cs (i + 1) ((a % p + c * (x ^ i % p)) % p) := rfl
    rw [h2, h1, ih (i + 1) (a + c * x ^ i)]
    have h3 : a + c * x ^ i + polyVal cs x * x ^ (i + 1) =
        a + polyVal (c :: cs) x * x ^ i := by
      show _ = a + (c + polyVal cs x * x) * x ^ i
      ring
    rw [h3]

theorem ShamirSecretSharing.evaluate_polynomial_eq (s : ShamirSecretSharing)
    (cs : List Nat) (x : Nat) :
    s.evaluate_polynomial cs x = polyVal cs x % s.prime := by
  have h := ShamirSecretSharing.evalLoop_eq s.prime x cs 0 0
  rw [Nat.zero_mod] at h
  simpa [ShamirSecretSharing.evaluate_polynomial] using h

theorem hornerEvalSpec_eq (p : Nat) (cs : List Nat) (x : Nat) :
    hornerEvalSpec p cs x = polyVal cs x % p := by
  induction cs with
  | nil => simp [hornerEvalSpec, polyVal]
  | cons c cs ih =>
    have h1 : hornerEvalSpec p (c :: cs) x = (c + hornerEvalSpec p cs x * x) % p := rfl
    rw [h1, ih]
    exact (Nat.ModEq.refl c).add ((Nat.mod_modEq (polyVal cs x) p).mul (Nat.ModEq.refl x))

/-- C8: the evaluation of `_evaluate_polynomial` (power accumulation with
reduction at each step) returns exactly the Horner-method evaluation mod p of
the coefficient list, as the spec describes it; determinism is definitional
since the embedded function is pure. -/
theorem c8_evaluate_polynomial_is_horner (s : ShamirSecretSharing)
    (coefficients : List Nat) (x : Nat) :
    s.evaluate_polynomial coefficients x = hornerEvalSpec s.prime coefficients x := by
  rw [ShamirSecretSharing.evaluate_polynomial_eq, hornerEvalSpec_eq]

/-- C9: `_generate_polynomial` returns exactly `threshold` coefficients, the
first being the secret and the remaining `threshold - 1` (the randbelow draws)
lying in `[0, prime)`. -/
theorem c9_generate_polynomial_shape (s : ShamirSecretSharing) (secret : Nat)
    (randoms : List Nat) (hk : 1 ≤ s.threshold)
    (hlen : s.threshold - 1 ≤ randoms.length)
    (hr : ∀ r ∈ randoms, r < s.prime) :
    (s.generate_polynomial secret randoms).length = s.threshold ∧
    (s.generate_polynomial secret randoms).headD 0 = secret ∧
    ∀ c ∈ (s.generate_polynomial secret randoms).tail, c < s.prime := by
  refine ⟨?_, rfl, ?_⟩
  · simp only [ShamirSecretSharing.generate_polynomial, List.length_cons,
      List.length_take]
    omega
  · intro c hc
    simp only [ShamirSecretSharing.generate_polynomial, List.tail_cons] at hc
    exact hr c (List.take_subset _ _ hc)

theorem c9_witness :
    (ShamirSecretSharing.generate_polynomial ⟨3, 5, 17⟩ 4 [5, 6]).length = 3 ∧
    (ShamirSecretSharing.generate_polynomial ⟨3, 5, 17⟩ 4 [5, 6]).headD 0 = 4 ∧
    ∀ c ∈ (ShamirSecretSharing.generate_polynomial ⟨3, 5, 17⟩ 4 [5, 6]).tail,
      c < 17 :=
  c9_generate_polynomial_shape ⟨3, 5, 17⟩ 4 [5, 6] (by decide) (by decide)
    (by decide)

/-- C6 counterexample: the constructor accepts threshold 0 with 3 total
shares, although `1 ≤ k` is violated, so the claimed invariant check does not
hold as stated. -/
theorem c6_counterexample :
    ShamirSecretSharing.mk? 0 3 17 = .ok ⟨0, 3, 17⟩ := rfl

/-- C6 amended: construction fails exactly when `threshold > total_shares`;
the lower bound `1 ≤ threshold` is not enforced. On success the stored
threshold and total_shares are the arguments, and the stored modulus is the
given prime, or the default 521-bit prime when the argument is falsy
(`prime or <default>`); nothing mutates them afterwards. -/
theorem c6_mk_ok_iff (threshold total_shares prime : Nat) :
    (ShamirSecretSharing.mk? threshold total_shares prime =
        .error .thresholdExceedsTotal ↔ total_shares < threshold) ∧
    (threshold ≤ total_shares →
      ShamirSecretSharing.mk? threshold total_shares prime =
        .ok ⟨threshold, total_shares,
          if prime = 0 then ShamirSecretSharing.defaultPrime else prime⟩) := by
  unfold ShamirSecretSharing.mk?
  by_cases h : total_shares < threshold
  · rw [if_pos h]
    refine ⟨⟨(fun _ => h), (fun _ => rfl)⟩, (fun h2 => absurd h (by omega))⟩
  · rw [if_neg h]
    refine ⟨⟨(fun hc => nomatch hc), (fun h2 => absurd h2 h)⟩, (fun _ => rfl)⟩

/-! ## Error behaviour of the reconstruction pipeline -/

theorem ShamirSecretSharing.lagrangeLoop_ne_insufficient (s : ShamirSecretSharing)
    (shs : List SecretShare) :
    ∀ (l : List (Nat × SecretShare)) (acc : Nat),
      s.lagrangeLoop shs l acc ≠ .error .insufficientShares := by
  intro l
  induction l with
  | nil => intro acc; simp [ShamirSecretSharing.lagrangeLoop]
  | cons e rest ih =>
    intro acc
    obtain ⟨i, sh⟩ := e
    show (match modInverse (s.numDenLoop shs i sh).2 s.prime with
      | none => Except.error ShamirError.notInvertible
      | some dinv => s.lagrangeLoop shs rest
          ((acc + sh.share_value *
            ((((s.numDenLoop shs i sh).1 * (dinv : Int)) % (s.prime : Int)).toNat)) % s.prime)) ≠
        Except.error ShamirError.insufficientShares
    cases modInverse (s.numDenLoop shs i sh).2 s.prime with
    | none => simp
    | some dinv => exact ih _

/-- C4: `reconstruct_secret` fails with the insufficient-shares error exactly
on inputs with fewer than `threshold` shares; with at least `threshold` shares
that error can no longer arise (any later failure is a different error). -/
theorem c4_insufficient_shares_iff (s : ShamirSecretSharing)
    (shares : List SecretShare) (secret_length : Nat) :
    (shares.length < s.threshold →
      s.reconstruct_secret shares secret_length = .error .insufficientShares) ∧
    (s.threshold ≤ shares.length →
      s.reconstruct_secret shares secret_length ≠ .error .insufficientShares) := by
  constructor
  · intro h
    simp [ShamirSecretSharing.reconstruct_secret,
      ShamirSecretSharing.lagrange_interpolation, h]
  · intro h
    have hnot : ¬ shares.length < s.threshold := Nat.not_lt.2 h
    simp only [ShamirSecretSharing.reconstruct_secret,
      ShamirSecretSharing.lagrange_interpolation, if_neg hnot]
    cases hout : s.lagrangeLoop (shares.take s.threshold)
        (shares.take s.threshold).enum 0 with
    | error e =>
      have hne := ShamirSecretSharing.lagrangeLoop_ne_insufficient s
        (shares.take s.threshold) (shares.take s.threshold).enum 0
      rw [hout] at hne
      intro hcontra
      exact hne (by simpa using hcontra)
    | ok v =>
      simp only [intToBytes]
      split <;> simp

theorem c4_witness :
    (ShamirSecretSharing.reconstruct_secret ⟨2, 3, 17⟩ [⟨1, 12, "node_1"⟩] 1 =
        .error .insufficientShares) ∧
    (ShamirSecretSharing.reconstruct_secret ⟨2, 3, 17⟩
        [⟨1, 12, "node_1"⟩, ⟨3, 9, "node_3"⟩] 1 ≠ .error .insufficientShares) :=
  ⟨(c4_insufficient_shares_iff ⟨2, 3, 17⟩ [⟨1, 12, "node_1"⟩] 1).1 (by decide),
   (c4_insufficient_shares_iff ⟨2, 3, 17⟩
      [⟨1, 12, "node_1"⟩, ⟨3, 9, "node_3"⟩] 1).2 (by decide)⟩

/-- C10: when Lagrange interpolation yields a field element too large for
`expected_length` bytes, `reconstruct_secret` propagates the overflow failure
of the byte encoding instead of truncating. -/
theorem c10_reconstruct_overflow (s : ShamirSecretSharing)
    (shares : List SecretShare) (secret_length v : Nat)
    (hv : s.lagrange_interpolation shares = .ok v)
    (hge : 256 ^ secret_length ≤ v) :
    s.reconstruct_secret shares secret_length = .error .overflow := by
  simp [ShamirSecretSharing.reconstruct_secret, hv, intToBytes, hge]

theorem c10_witness :
    ShamirSecretSharing.lagrange_interpolation ⟨2, 3, 257⟩
        [⟨1, 255, "a"⟩, ⟨2, 254, "b"⟩] = .ok 256 ∧
    256 ^ 1 ≤ 256 ∧
    ShamirSecretSharing.reconstruct_secret ⟨2, 3, 257⟩
        [⟨1, 255, "a"⟩, ⟨2, 254, "b"⟩] 1 = .error .overflow :=
  ⟨rfl, by decide,
    c10_reconstruct_overflow ⟨2, 3, 257⟩ [⟨1, 255, "a"⟩, ⟨2, 254, "b"⟩] 1 256
      rfl (by decide)⟩

/-- C3: `split_secret` fails with the secret-too-large error iff the
big-endian integer of the secret is at least `prime`; an over-sized secret is
never coerced into shares, and any in-range secret splits successfully when no
label list is supplied. -/
theorem c3_secret_too_large_iff (s : ShamirSecretSharing) (secret : List Nat)
    (node_ids : Option (List String)) (randoms : List Nat) :
    (s.split_secret secret node_ids randoms = .error .secretTooLarge ↔
      s.prime ≤ bytesToInt secret) ∧
    (s.prime ≤ bytesToInt secret →
      ∀ out, s.split_secret secret node_ids randoms ≠ .ok out) ∧
    (bytesToInt secret < s.prime →
      ∃ out, s.split_secret secret none randoms = .ok out) := by
  refine ⟨?_, ?_, ?_⟩
  · by_cases h : s.prime ≤ bytesToInt secret
    · simp [ShamirSecretSharing.split_secret, h]
    · cases node_ids with
      | none => simp [ShamirSecretSharing.split_secret, h]
      | some ids =>
        by_cases hlen : ids.length ≠ s.total_shares
        · simp [ShamirSecretSharing.split_secret, h, hlen]
        · simp [ShamirSecretSharing.split_secret, h, hlen]
  · intro h out
    simp [ShamirSecretSharing.split_secret, h]
  · intro h
    refine ⟨(List.range s.total_shares).map (fun i =>
      ⟨i + 1, s.evaluate_polynomial
        (s.generate_polynomial (bytesToInt secret) randoms) (i + 1),
        "node_" ++ toString (i + 1)⟩), ?_⟩
    simp [ShamirSecretSharing.split_secret, Nat.not_le.2 h]

/-- C2 counterexample: both supplied shares have indices (5 and 7) outside
`[1, 3]`, yet `reconstruct_secret` raises no validation error at all and
happily interpolates a value; the claimed InvalidShare check does not exist in
the code (`verify_share` is never called by reconstruction). -/
theorem c2_counterexample :
    ShamirSecretSharing.reconstruct_secret ⟨2, 3, 17⟩
      [⟨5, 1, "a"⟩, ⟨7, 2, "b"⟩] 1 = .ok [7] := rfl

/-! ## The modular inverse search -/

theorem modInverse_eq_none {p : Nat} (hp : 1 < p) (d : Int)
    (hd : (d : ZMod p) = 0) : modInverse d p = none := by
  haveI : Fact (1 < p) := ⟨hp⟩
  rw [modInverse, List.find?_eq_none]
  intro x hx
  simp only [beq_iff_eq]
  intro hmod
  have hzc : ((d * (x : Int) : Int) : ZMod p) = ((1 : Int) : ZMod p) :=
    (ZMod.intCast_eq_intCast_iff' _ _ _).2 hmod
  rw [Int.cast_mul, hd, zero_mul, Int.cast_one] at hzc
  exact zero_ne_one hzc

theorem modInverse_eq_some {p : Nat} (hp : p.Prime) (d : Int)
    (hd : (d : ZMod p) ≠ 0) :
    ∃ v : Nat, modInverse d p = some v ∧ v < p ∧
      ((v : Nat) : ZMod p) = (d : ZMod p)⁻¹ := by
  haveI : Fact p.Prime := ⟨hp⟩
  haveI : NeZero p := ⟨hp.ne_zero⟩
  have hexists : ∃ x, x ∈ List.range p ∧
      ((d * (x : Int)) % (p : Int) == 1 % (p : Int)) = true := by
    refine ⟨((d : ZMod p)⁻¹).val, List.mem_range.2 (ZMod.val_lt _), ?_⟩
    rw [beq_iff_eq, ← ZMod.intCast_eq_intCast_iff']
    push_cast
    rw [ZMod.natCast_val, ZMod.cast_id]
    exact mul_inv_cancel₀ hd
  obtain ⟨v, hfind⟩ := Option.isSome_iff_exists.1 (List.find?_isSome.2 hexists)
  have hmem := List.mem_of_find?_eq_some hfind
  have hpred := List.find?_some hfind
  rw [beq_iff_eq, ← ZMod.intCast_eq_intCast_iff'] at hpred
  push_cast at hpred
  exact ⟨v, hfind, List.mem_range.1 hmem,
    (inv_eq_of_mul_eq_one_right hpred).symm⟩

/-! ## Characterisation of the numerator and denominator products -/

theorem ShamirSecretSharing.numDenFold_spec (s : ShamirSecretSharing)
    (hp : s.prime ≠ 0) (share_i : SecretShare) (i : Nat) :
    ∀ (l : List (Nat × SecretShare)) (n0 d0 : Int), 0 ≤ n0 → 0 ≤ d0 →
      0 ≤ (l.foldl (s.numDenStep share_i i) (n0, d0)).1 ∧
      0 ≤ (l.foldl (s.numDenStep share_i i) (n0, d0)).2 ∧
      ((l.foldl (s.numDenStep share_i i) (n0, d0)).1 : ZMod s.prime) =
        (n0 : ZMod s.prime) * (l.map (lagNumTerm s.prime i)).prod ∧
      ((l.foldl (s.numDenStep share_i i) (n0, d0)).2 : ZMod s.prime) =
        (d0 : ZMod s.prime) * (l.map (lagDenTerm s.prime share_i i)).prod := by
  intro l
  induction l with
  | nil =>
    intro n0 d0 hn hd
    refine ⟨hn, hd, by simp, by simp⟩
  | cons e rest ih =>
    intro n0 d0 hn hd
    by_cases hie : i = e.1
    · have hstep : s.numDenStep share_i i (n0, d0) e = (n0, d0) := by
        simp [ShamirSecretSharing.numDenStep, hie]
      rw [List.foldl_cons, hstep]
      obtain ⟨a1, a2, a3, a4⟩ := ih n0 d0 hn hd
      refine ⟨a1, a2, ?_, ?_⟩
      · rw [a3, List.map_cons, List.prod_cons]
        simp [lagNumTerm, hie]
      · rw [a4, List.map_cons, List.prod_cons]
        simp [lagDenTerm, hie]
    · have hpz : (s.prime : Int) ≠ 0 := by exact_mod_cast hp
      have hstep : s.numDenStep share_i i (n0, d0) e =
          ((n0 * (-(e.2.share_id : Int))) % (s.prime : Int),
           (d0 * ((share_i.share_id : Int) - (e.2.share_id : Int))) % (s.prime : Int)) := by
        simp [ShamirSecretSharing.numDenStep, hie]
      rw [List.foldl_cons, hstep]
      obtain ⟨a1, a2, a3, a4⟩ := ih _ _ (Int.emod_nonneg _ hpz) (Int.emod_nonneg _ hpz)
      refine ⟨a1, a2, ?_, ?_⟩
      · rw [a3, ZMod.intCast_mod, List.map_cons, List.prod_cons]
        push_cast
        rw [lagNumTerm, if_neg hie]
        ring
      · rw [a4, ZMod.intCast_mod, List.map_cons, List.prod_cons]
        push_cast
        rw [lagDenTerm, if_neg hie]
        ring

theorem ShamirSecretSharing.numDenLoop_spec (s : ShamirSecretSharing)
    (hp : s.prime ≠ 0) (shs : List SecretShare) (i : Nat)
    (share_i : SecretShare) :
    0 ≤ (s.numDenLoop shs i share_i).1 ∧
    0 ≤ (s.numDenLoop shs i share_i).2 ∧
    ((s.numDenLoop shs i share_i).1 : ZMod s.prime) =
      (shs.enum.map (lagNumTerm s.prime i)).prod ∧
    ((s.numDenLoop shs i share_i).2 : ZMod s.prime) =
      (shs.enum.map (lagDenTerm s.prime share_i i)).prod := by
  have h := s.numDenFold_spec hp share_i i shs.enum 1 1 zero_le_one zero_le_one
  simpa [ShamirSecretSharing.numDenLoop] using h

theorem ShamirSecretSharing.lagrangeLoop_error_of_mem (s : ShamirSecretSharing)
    (shs : List SecretShare) :
    ∀ (l : List (Nat × SecretShare)) (acc : Nat),
      (∃ e ∈ l, modInverse (s.numDenLoop shs e.1 e.2).2 s.prime = none) →
      s.lagrangeLoop shs l acc = .error .notInvertible := by
  intro l
  induction l with
  | nil =>
    intro acc h
    obtain ⟨e, he, _⟩ := h
    exact absurd he (List.not_mem_nil e)
  | cons hd rest ih =>
    intro acc h
    obtain ⟨i, sh⟩ := hd
    show (match modInverse (s.numDenLoop shs i sh).2 s.prime with
      | none => Except.error ShamirError.notInvertible
      | some dinv => s.lagrangeLoop shs rest
          ((acc + sh.share_value *
            ((((s.numDenLoop shs i sh).1 * (dinv : Int)) % (s.prime : Int)).toNat)) % s.prime)) =
        Except.error ShamirError.notInvertible
    cases hmi : modInverse (s.numDenLoop shs i sh).2 s.prime with
    | none => rfl
    | some dinv =>
      obtain ⟨e, he, hnone⟩ := h
      rcases List.mem_cons.1 he with heq | hrest
      · rw [heq] at hnone
        rw [hnone] at hmi
        exact nomatch hmi
      · exact ih _ ⟨e, hrest, hnone⟩

/-- C2 amended: duplicate indices among the `threshold` shares actually used
make a Lagrange denominator vanish, so reconstruction fails with the
not-invertible error raised by `pow(denominator, -1, p)` (rather than a typed
duplicate-index failure, and rather than returning a wrong value). -/
theorem c2_duplicate_index_not_invertible (s : ShamirSecretSharing)
    (hp : 1 < s.prime) (shares : List SecretShare) (secret_length : Nat)
    (hlen : s.threshold ≤ shares.length)
    (a b : Nat) (ha : a < s.threshold) (hb : b < s.threshold) (hab : a ≠ b)
    (hdup : ((shares.take s.threshold).getD a ⟨0, 0, ""⟩).share_id =
            ((shares.take s.threshold).getD b ⟨0, 0, ""⟩).share_id) :
    s.reconstruct_secret shares secret_length = .error .notInvertible := by
  have hshslen : (shares.take s.threshold).length = s.threshold := by
    rw [List.length_take]
    omega
  have ha2 : a < (shares.take s.threshold).length := by omega
  have hb2 : b < (shares.take s.threshold).length := by omega
  have henuma : a < (shares.take s.threshold).enum.length := by
    rw [List.enum_length]; omega
  have henumb : b < (shares.take s.threshold).enum.length := by
    rw [List.enum_length]; omega
  rw [List.getD_eq_getElem _ _ ha2, List.getD_eq_getElem _ _ hb2] at hdup
  have hpz : s.prime ≠ 0 := by omega
  -- the denominator for the share at position a contains the zero factor from b
  have hzero : (0 : ZMod s.prime) ∈
      ((shares.take s.threshold).enum.map
        (lagDenTerm s.prime (shares.take s.threshold)[a] a)) := by
    have hb3 : b < ((shares.take s.threshold).enum.map
        (lagDenTerm s.prime (shares.take s.threshold)[a] a)).length := by
      rw [List.length_map, List.enum_length]; omega
    have hval : ((shares.take s.threshold).enum.map
        (lagDenTerm s.prime (shares.take s.threshold)[a] a))[b] = 0 := by
      rw [List.getElem_map]
      have hen : (shares.take s.threshold).enum[b] =
          (b, (shares.take s.threshold)[b]) := List.getElem_enum _ _ _
      rw [hen, lagDenTerm, if_neg hab]
      rw [hdup, sub_self]
    rw [← hval]
    exact List.getElem_mem hb3
  have hdenzero : (((s.numDenLoop (shares.take s.threshold) a
      (shares.take s.threshold)[a]).2 : Int) : ZMod s.prime) = 0 := by
    obtain ⟨_, _, _, h4⟩ := s.numDenLoop_spec hpz (shares.take s.threshold) a
      (shares.take s.threshold)[a]
    rw [h4]
    exact List.prod_eq_zero hzero
  have hnone := modInverse_eq_none hp _ hdenzero
  have hmem : (a, (shares.take s.threshold)[a]) ∈ (shares.take s.threshold).enum := by
    have hen : (shares.take s.threshold).enum[a] =
        (a, (shares.take s.threshold)[a]) := List.getElem_enum _ _ _
    rw [← hen]
    exact List.getElem_mem henuma
  have hloop := s.lagrangeLoop_error_of_mem (shares.take s.threshold)
    (shares.take s.threshold).enum 0 ⟨(a, (shares.take s.threshold)[a]), hmem, hnone⟩
  have hnot : ¬ shares.length < s.threshold := Nat.not_lt.2 hlen
  simp only [ShamirSecretSharing.reconstruct_secret,
    ShamirSecretSharing.lagrange_interpolation, if_neg hnot, hloop]

theorem c2_witness :
    ShamirSecretSharing.reconstruct_secret ⟨2, 3, 17⟩
      [⟨1, 3, "a"⟩, ⟨1, 4, "b"⟩] 1 = .error .notInvertible :=
  c2_duplicate_index_not_invertible ⟨2, 3, 17⟩ (by decide)
    [⟨1, 3, "a"⟩, ⟨1, 4, "b"⟩] 1 (by decide) 0 1 (by decide) (by decide)
    (by decide) (by decide)

/-! ## Converting folds over enumerated lists into indexed big operators -/

theorem enumFrom_map_prod {M α : Type} [CommMonoid M] (f : Nat × α → M)
    (dflt : α) :
    ∀ (n : Nat) (l : List α), ((List.enumFrom n l).map f).prod =
      ∏ j in Finset.range l.length, f (n + j, l.getD j dflt) := by
  intro n l
  induction l generalizing n with
  | nil => simp
  | cons a l ih =>
    rw [List.enumFrom_cons, List.map_cons, List.prod_cons, ih (n + 1),
      List.length_cons, Finset.prod_range_succ']
    have h0 : f (n + 0, (a :: l).getD 0 dflt) = f (n, a) := by
      rw [List.getD_cons_zero, Nat.add_zero]
    have hsucc : ∀ j ∈ Finset.range l.length,
        f (n + (j + 1), (a :: l).getD (j + 1) dflt) = f (n + 1 + j, l.getD j dflt) := by
      intro j hj
      rw [List.getD_cons_succ]
      have harith : n + (j + 1) = n + 1 + j := by omega
      rw [harith]
    rw [Finset.prod_congr rfl hsucc, h0]
    exact mul_comm _ _

theorem enum_map_prod {M α : Type} [CommMonoid M] (f : Nat × α → M) (dflt : α)
    (l : List α) :
    (l.enum.map f).prod = ∏ j in Finset.range l.length, f (j, l.getD j dflt) := by
  rw [List.enum_eq_enumFrom, enumFrom_map_prod f dflt 0]
  exact Finset.prod_congr rfl (fun j _ => by rw [Nat.zero_add])

theorem enumFrom_map_sum {M α : Type} [AddCommMonoid M] (f : Nat × α → M)
    (dflt : α) :
    ∀ (n : Nat) (l : List α), ((List.enumFrom n l).map f).sum =
      ∑ j in Finset.range l.length, f (n + j, l.getD j dflt) := by
  intro n l
  induction l generalizing n with
  | nil => simp
  | cons a l ih =>
    rw [List.enumFrom_cons, List.map_cons, List.sum_cons, ih (n + 1),
      List.length_cons, Finset.sum_range_succ']
    have h0 : f (n + 0, (a :: l).getD 0 dflt) = f (n, a) := by
      rw [List.getD_cons_zero, Nat.add_zero]
    have hsucc : ∀ j ∈ Finset.range l.length,
        f (n + (j + 1), (a :: l).getD (j + 1) dflt) = f (n + 1 + j, l.getD j dflt) := by
      intro j hj
      rw [List.getD_cons_succ]
      have harith : n + (j + 1) = n + 1 + j := by omega
      rw [harith]
    rw [Finset.sum_congr rfl hsucc, h0]
    exact add_comm _ _

theorem enum_map_sum {M α : Type} [AddCommMonoid M] (f : Nat × α → M) (dflt : α)
    (l : List α) :
    (l.enum.map f).sum = ∑ j in Finset.range l.length, f (j, l.getD j dflt) := by
  rw [List.enum_eq_enumFrom, enumFrom_map_sum f dflt 0]
  exact Finset.sum_congr rfl (fun j _ => by rw [Nat.zero_add])

theorem prod_ite_one_erase {M : Type} [CommMonoid M] (n j : Nat) (hj : j < n)
    (t : Nat → M) :
    (∏ m in Finset.range n, if j = m then 1 else t m) =
      ∏ m in (Finset.range n).erase j, t m := by
  rw [← Finset.mul_prod_erase (Finset.range n)
    (fun m => if j = m then 1 else t m) (Finset.mem_range.2 hj)]
  rw [if_pos rfl, one_mul]
  refine Finset.prod_congr rfl (fun m hm => ?_)
  rw [if_neg (Ne.symm (Finset.ne_of_mem_erase hm))]

/-! ## The share polynomial over the prime field -/

theorem polyVal_zero (cs : List Nat) : polyVal cs 0 = cs.headD 0 := by
  cases cs with
  | nil => rfl
  | cons c cs => show c + polyVal cs 0 * 0 = c; rw [Nat.mul_zero, Nat.add_zero]

theorem listPolyZ_eval (p : Nat) (cs : List Nat) (x : Nat) :
    (∑ j in Finset.range cs.length,
      Polynomial.C ((cs.getD j 0 : Nat) : ZMod p) * Polynomial.X ^ j).eval
      ((x : Nat) : ZMod p) = ((polyVal cs x : Nat) : ZMod p) := by
  induction cs with
  | nil => simp [polyVal]
  | cons c cs ih =>
    rw [List.length_cons, Finset.sum_range_succ']
    simp only [List.getD_cons_succ, List.getD_cons_zero, pow_zero, mul_one,
      pow_succ, ← mul_assoc]
    rw [← Finset.sum_mul, Polynomial.eval_add, Polynomial.eval_mul,
      Polynomial.eval_X, Polynomial.eval_C, ih]
    have hv : polyVal (c :: cs) x = c + polyVal cs x * x := rfl
    rw [hv]
    push_cast
    ring

theorem listPolyZ_degree (p : Nat) (cs : List Nat) :
    (∑ j in Finset.range cs.length,
      Polynomial.C ((cs.getD j 0 : Nat) : ZMod p) * Polynomial.X ^ j).degree <
      (cs.length : WithBot Nat) := by
  refine lt_of_le_of_lt (Polynomial.degree_sum_le _ _) ?_
  rw [Finset.sup_lt_iff (WithBot.bot_lt_coe _)]
  intro j hj
  refine lt_of_le_of_lt (Polynomial.degree_C_mul_X_pow_le _ _) ?_
  exact_mod_cast Finset.mem_range.1 hj

/-- Evaluating the Lagrange interpolation form at zero: for a polynomial of
degree below the number of nodes, the value at zero is the sum over nodes of
the nodal value times (product of negated other nodes) times the inverse of
(product of node differences), which is the quantity the code computes. -/
theorem lagrange_eval_zero {p : Nat} [Fact p.Prime] (t : Finset Nat)
    (v : Nat → ZMod p) (hv : Set.InjOn v t) (f : Polynomial (ZMod p))
    (hdeg : f.degree < t.card) :
    f.eval 0 = ∑ j in t, f.eval (v j) *
      ((∏ m in t.erase j, -(v m)) * (∏ m in t.erase j, (v j - v m))⁻¹) := by
  have hinterp := Lagrange.eq_interpolate (s := t) (v := v) hv hdeg
  conv_lhs => rw [hinterp]
  rw [Lagrange.interpolate_apply, Polynomial.eval_finset_sum]
  refine Finset.sum_congr rfl (fun j _ => ?_)
  rw [Polynomial.eval_mul, Polynomial.eval_C]
  congr 1
  rw [Lagrange.basis, Polynomial.eval_prod]
  have hterm : ∀ m ∈ t.erase j,
      (Lagrange.basisDivisor (v j) (v m)).eval 0 = (v j - v m)⁻¹ * -(v m) := by
    intro m _
    rw [Lagrange.basisDivisor]
    rw [Polynomial.eval_mul, Polynomial.eval_C, Polynomial.eval_sub,
      Polynomial.eval_X, Polynomial.eval_C, zero_sub]
  rw [Finset.prod_congr rfl hterm, Finset.prod_mul_distrib,
    ← Finset.prod_inv_distrib]
  ring

/-! ## The outer interpolation loop on the success path -/

theorem ShamirSecretSharing.lagrangeLoop_ok (s : ShamirSecretSharing)
    (hp : s.prime.Prime) (shs : List SecretShare) :
    ∀ (l : List (Nat × SecretShare)) (acc : Nat), acc < s.prime →
      (∀ e ∈ l, ((s.numDenLoop shs e.1 e.2).2 : ZMod s.prime) ≠ 0) →
      ∃ r, s.lagrangeLoop shs l acc = .ok r ∧ r < s.prime ∧
        ((r : Nat) : ZMod s.prime) = ((acc : Nat) : ZMod s.prime) +
          (l.map (fun e => (e.2.share_value : ZMod s.prime) *
            (((s.numDenLoop shs e.1 e.2).1 : ZMod s.prime) *
             ((s.numDenLoop shs e.1 e.2).2 : ZMod s.prime)⁻¹))).sum := by
  intro l
  induction l with
  | nil =>
    intro acc hacc h
    exact ⟨acc, rfl, hacc, by simp⟩
  | cons e rest ih =>
    intro acc hacc h
    obtain ⟨i, sh⟩ := e
    have hden : ((s.numDenLoop shs i sh).2 : ZMod s.prime) ≠ 0 :=
      h (i, sh) (List.mem_cons_self _ _)
    obtain ⟨dinv, hdinv, hdlt, hdcast⟩ := modInverse_eq_some hp _ hden
    have hppos : 0 < s.prime := hp.pos
    have hpz : (s.prime : Int) ≠ 0 := by exact_mod_cast Nat.pos_iff_ne_zero.1 hppos
    have hacc2 : (acc + sh.share_value *
        ((((s.numDenLoop shs i sh).1 * (dinv : Int)) % (s.prime : Int)).toNat)) % s.prime
        < s.prime := Nat.mod_lt _ hppos
    obtain ⟨r, hr, hrlt, hrcast⟩ :=
      ih _ hacc2 (fun e2 he2 => h e2 (List.mem_cons_of_mem _ he2))
    refine ⟨r, ?_, hrlt, ?_⟩
    · show (match modInverse (s.numDenLoop shs i sh).2 s.prime with
        | none => Except.error ShamirError.notInvertible
        | some dinv => s.lagrangeLoop shs rest
            ((acc + sh.share_value *
              ((((s.numDenLoop shs i sh).1 * (dinv : Int)) % (s.prime : Int)).toNat)) % s.prime)) =
          Except.ok r
      rw [hdinv]
      exact hr
    · rw [hrcast, List.map_cons, List.sum_cons]
      have hnum0 : 0 ≤ (s.numDenLoop shs i sh).1 :=
        (s.numDenLoop_spec (Nat.pos_iff_ne_zero.1 hppos) shs i sh).1
      have hco : (((((s.numDenLoop shs i sh).1 * (dinv : Int)) % (s.prime : Int)).toNat : Nat)
          : ZMod s.prime) =
          ((s.numDenLoop shs i sh).1 : ZMod s.prime) *
            ((s.numDenLoop shs i sh).2 : ZMod s.prime)⁻¹ := by
        have hnn : 0 ≤ ((s.numDenLoop shs i sh).1 * (dinv : Int)) % (s.prime : Int) :=
          Int.emod_nonneg _ hpz
        have hcast1 : ((((((s.numDenLoop shs i sh).1 * (dinv : Int)) % (s.prime : Int)).toNat
            : Nat) : Int) : ZMod s.prime) =
            ((((s.numDenLoop shs i sh).1 * (dinv : Int)) % (s.prime : Int) : Int)
              : ZMod s.prime) := by
          rw [Int.toNat_of_nonneg hnn]
        rw [← Int.cast_natCast, hcast1, ZMod.intCast_mod, Int.cast_mul,
          Int.cast_natCast, hdcast]
      rw [ZMod.natCast_mod, Nat.cast_add, Nat.cast_mul, hco]
      ring

/-! ## Correctness of the interpolation on valid share lists -/

theorem ShamirSecretSharing.lagrange_core (s : ShamirSecretSharing)
    (hp : s.prime.Prime) (coeffs : List Nat) (shs : List SecretShare)
    (hlen : shs.length = s.threshold)
    (hclen : coeffs.length ≤ shs.length)
    (hids : ∀ (a b : Nat), a < shs.length → b < shs.length → a ≠ b →
      ((shs.getD a dfltShare).share_id : ZMod s.prime) ≠
      ((shs.getD b dfltShare).share_id : ZMod s.prime))
    (hvals : ∀ (j : Nat), j < shs.length →
      ((shs.getD j dfltShare).share_value : ZMod s.prime) =
        ((polyVal coeffs (shs.getD j dfltShare).share_id : Nat) : ZMod s.prime)) :
    s.lagrange_interpolation shs = .ok (coeffs.headD 0 % s.prime) := by
  haveI : Fact s.prime.Prime := ⟨hp⟩
  have hppos : 0 < s.prime := hp.pos
  have hpz : s.prime ≠ 0 := Nat.pos_iff_ne_zero.1 hppos
  -- the denominators of all Lagrange coefficients are nonzero in the field
  have hdens : ∀ e ∈ shs.enum, ((s.numDenLoop shs e.1 e.2).2 : ZMod s.prime) ≠ 0 := by
    intro e he
    obtain ⟨i, sh⟩ := e
    obtain ⟨m, hm⟩ := List.mem_iff_get.1 he
    have hmlen : (m : Nat) < shs.length := by
      have h1 := m.isLt
      simp only [List.enum_length] at h1
      exact h1
    rw [List.get_eq_getElem, List.getElem_enum] at hm
    injection hm with hi0 hsh0
    have hi : i = (m : Nat) := hi0.symm
    have hsh : sh = shs[(m : Nat)] := hsh0.symm
    obtain ⟨_, _, _, hden⟩ := s.numDenLoop_spec hpz shs i sh
    rw [hden, enum_map_prod _ dfltShare, Finset.prod_ne_zero_iff]
    intro m2 hm2
    show (lagDenTerm s.prime sh i (m2, shs.getD m2 dfltShare)) ≠ 0
    rw [lagDenTerm]
    by_cases him : i = m2
    · rw [if_pos him]; exact one_ne_zero
    · rw [if_neg him]
      refine sub_ne_zero.2 ?_
      have hshd : sh = shs.getD i dfltShare := by
        rw [hi, hsh, List.getD_eq_getElem _ _ hmlen]
      rw [hshd]
      exact hids i m2 (hi ▸ hmlen) (Finset.mem_range.1 hm2) him
  obtain ⟨r, hloop, hrlt, hrcast⟩ := s.lagrangeLoop_ok hp shs shs.enum 0 hppos hdens
  -- the nodes are injective on the index range
  have hinj : Set.InjOn (fun m => ((shs.getD m dfltShare).share_id : ZMod s.prime))
      (Finset.range shs.length) := by
    intro a ha b hb heq
    by_contra hne
    exact hids a b (Finset.mem_range.1 (by exact_mod_cast ha))
      (Finset.mem_range.1 (by exact_mod_cast hb)) hne heq
  have hdeg : (∑ j in Finset.range coeffs.length,
      Polynomial.C ((coeffs.getD j 0 : Nat) : ZMod s.prime) * Polynomial.X ^ j).degree <
      (((Finset.range shs.length).card : Nat) : WithBot Nat) := by
    rw [Finset.card_range]
    refine lt_of_lt_of_le (listPolyZ_degree s.prime coeffs) ?_
    exact_mod_cast hclen
  have hlag := lagrange_eval_zero (Finset.range shs.length)
    (fun m => ((shs.getD m dfltShare).share_id : ZMod s.prime)) hinj
    (∑ j in Finset.range coeffs.length,
      Polynomial.C ((coeffs.getD j 0 : Nat) : ZMod s.prime) * Polynomial.X ^ j) hdeg
  -- per-term identification of the loop sum with the Lagrange sum
  have hterm : ∀ j ∈ Finset.range shs.length,
      ((shs.getD j dfltShare).share_value : ZMod s.prime) *
        (((s.numDenLoop shs j (shs.getD j dfltShare)).1 : ZMod s.prime) *
         ((s.numDenLoop shs j (shs.getD j dfltShare)).2 : ZMod s.prime)⁻¹) =
      (∑ j2 in Finset.range coeffs.length,
        Polynomial.C ((coeffs.getD j2 0 : Nat) : ZMod s.prime) * Polynomial.X ^ j2).eval
        ((fun m => ((shs.getD m dfltShare).share_id : ZMod s.prime)) j) *
      ((∏ m in (Finset.range shs.length).erase j,
          -((fun m2 => ((shs.getD m2 dfltShare).share_id : ZMod s.prime)) m)) *
       (∏ m in (Finset.range shs.length).erase j,
          ((fun m2 => ((shs.getD m2 dfltShare).share_id : ZMod s.prime)) j -
           (fun m2 => ((shs.getD m2 dfltShare).share_id : ZMod s.prime)) m))⁻¹) := by
    intro j hj
    obtain ⟨_, _, hnum, hden⟩ := s.numDenLoop_spec hpz shs j (shs.getD j dfltShare)
    have hn2 : (((s.numDenLoop shs j (shs.getD j dfltShare)).1 : Int) : ZMod s.prime) =
        ∏ m in (Finset.range shs.length).erase j,
          -((shs.getD m dfltShare).share_id : ZMod s.prime) := by
      rw [hnum, enum_map_prod _ dfltShare]
      calc (∏ m in Finset.range shs.length,
            lagNumTerm s.prime j (m, shs.getD m dfltShare))
          = ∏ m in Finset.range shs.length,
              (if j = m then 1 else -((shs.getD m dfltShare).share_id : ZMod s.prime)) :=
            Finset.prod_congr rfl (fun m _ => rfl)
        _ = ∏ m in (Finset.range shs.length).erase j,
              -((shs.getD m dfltShare).share_id : ZMod s.prime) :=
            prod_ite_one_erase _ _ (Finset.mem_range.1 hj) _
    have hd2 : (((s.numDenLoop shs j (shs.getD j dfltShare)).2 : Int) : ZMod s.prime) =
        ∏ m in (Finset.range shs.length).erase j,
          (((shs.getD j dfltShare).share_id : ZMod s.prime) -
           ((shs.getD m dfltShare).share_id : ZMod s.prime)) := by
      rw [hden, enum_map_prod _ dfltShare]
      calc (∏ m in Finset.range shs.length,
            lagDenTerm s.prime (shs.getD j dfltShare) j (m, shs.getD m dfltShare))
          = ∏ m in Finset.range shs.length,
              (if j = m then 1 else
                (((shs.getD j dfltShare).share_id : ZMod s.prime) -
                 ((shs.getD m dfltShare).share_id : ZMod s.prime))) :=
            Finset.prod_congr rfl (fun m _ => rfl)
        _ = ∏ m in (Finset.range shs.length).erase j,
              (((shs.getD j dfltShare).share_id : ZMod s.prime) -
               ((shs.getD m dfltShare).share_id : ZMod s.prime)) :=
            prod_ite_one_erase _ _ (Finset.mem_range.1 hj) _
    rw [hn2, hd2, hvals j (Finset.mem_range.1 hj), ← listPolyZ_eval]
  -- the reconstructed residue equals the constant coefficient in the field
  have hcastr : ((r : Nat) : ZMod s.prime) = ((coeffs.headD 0 : Nat) : ZMod s.prime) := by
    rw [enum_map_sum _ dfltShare] at hrcast
    simp only [Nat.cast_zero, zero_add] at hrcast
    rw [hrcast, Finset.sum_congr rfl hterm, ← hlag]
    have h0 : ((0 : Nat) : ZMod s.prime) = 0 := Nat.cast_zero
    rw [← h0, listPolyZ_eval, polyVal_zero]
  have hreq : r = coeffs.headD 0 % s.prime := by
    have h2 := (ZMod.natCast_eq_natCast_iff' _ _ _).1 hcastr
    rwa [Nat.mod_eq_of_lt hrlt] at h2
  have hguard : ¬ shs.length < s.threshold := by omega
  have htake : shs.take s.threshold = shs := by
    rw [← hlen]
    exact List.take_length shs
  unfold ShamirSecretSharing.lagrange_interpolation
  rw [if_neg hguard, htake, hloop, hreq]

/-! ## Byte encoding round trip -/

theorem bytesToInt_append (s : List Nat) (b : Nat) :
    bytesToInt (s ++ [b]) = bytesToInt s * 256 + b := by
  unfold bytesToInt
  rw [List.foldl_append]
  rfl

theorem bytesToInt_lt (s : List Nat) (h : ∀ b ∈ s, b < 256) :
    bytesToInt s < 256 ^ s.length := by
  induction s using List.reverseRecOn with
  | nil => simp [bytesToInt]
  | append_singleton s b ih =>
    rw [bytesToInt_append, List.length_append]
    have hb : b < 256 := h b (by simp)
    have hs : bytesToInt s < 256 ^ s.length := ih (fun x hx => h x (by simp [hx]))
    have hpow : 256 ^ (s.length + [b].length) = 256 ^ s.length * 256 := by
      rw [List.length_singleton, pow_succ]
    rw [hpow]
    omega

theorem natToBytes_roundtrip (s : List Nat) (h : ∀ b ∈ s, b < 256) :
    natToBytes (bytesToInt s) s.length = s := by
  induction s using List.reverseRecOn with
  | nil => rfl
  | append_singleton s b ih =>
    have hb : b < 256 := h b (by simp)
    rw [bytesToInt_append, List.length_append, List.length_singleton]
    simp only [natToBytes]
    have hdiv : (bytesToInt s * 256 + b) / 256 = bytesToInt s := by omega
    have hmod : (bytesToInt s * 256 + b) % 256 = b := by omega
    rw [hdiv, hmod, ih (fun x hx => h x (by simp [hx]))]

/-! ## Interpolation only consumes the first threshold shares -/

theorem ShamirSecretSharing.lagrange_interpolation_take (s : ShamirSecretSharing)
    (shares : List SecretShare) (h : s.threshold ≤ shares.length) :
    s.lagrange_interpolation (shares.take s.threshold) =
      s.lagrange_interpolation shares := by
  unfold ShamirSecretSharing.lagrange_interpolation
  have h1 : ¬ shares.length < s.threshold := Nat.not_lt.2 h
  have h2 : (shares.take s.threshold).length = s.threshold := by
    rw [List.length_take]
    omega
  have h3 : ¬ (shares.take s.threshold).length < s.threshold := by omega
  rw [if_neg h1, if_neg h3, List.take_take, min_self]

/-! ## Reconstruction from any valid share subset of a split -/

theorem ShamirSecretSharing.reconstruct_subset
    (k n p : Nat) (hp : p.Prime) (hk : 1 ≤ k) (hkn : k ≤ n) (hnp : n < p)
    (secret : List Nat) (hbytes : ∀ b ∈ secret, b < 256)
    (hsec : bytesToInt secret < p)
    (randoms : List Nat) (hrand : k - 1 ≤ randoms.length)
    (shares : List SecretShare)
    (hsplit : ShamirSecretSharing.split_secret ⟨k, n, p⟩ secret none randoms =
      .ok shares)
    (sub : List SecretShare) (hmem : ∀ sh ∈ sub, sh ∈ shares)
    (hnodup : (sub.map SecretShare.share_id).Nodup)
    (hsublen : k ≤ sub.length) :
    ShamirSecretSharing.reconstruct_secret ⟨k, n, p⟩ sub secret.length =
      .ok secret := by
  have hshares : shares = (List.range n).map (fun i =>
      ⟨i + 1, ShamirSecretSharing.evaluate_polynomial ⟨k, n, p⟩
        (ShamirSecretSharing.generate_polynomial ⟨k, n, p⟩ (bytesToInt secret) randoms)
        (i + 1), "node_" ++ toString (i + 1)⟩) := by
    simp only [ShamirSecretSharing.split_secret, if_neg (Nat.not_le.2 hsec)] at hsplit
    exact (Except.ok.inj hsplit).symm
  have hcoeffs : (ShamirSecretSharing.generate_polynomial ⟨k, n, p⟩
      (bytesToInt secret) randoms).length = k := by
    simp only [ShamirSecretSharing.generate_polynomial, List.length_cons,
      List.length_take]
    omega
  have hprop : ∀ sh ∈ shares, 1 ≤ sh.share_id ∧ sh.share_id ≤ n ∧
      sh.share_value = ShamirSecretSharing.evaluate_polynomial ⟨k, n, p⟩
        (ShamirSecretSharing.generate_polynomial ⟨k, n, p⟩ (bytesToInt secret) randoms)
        sh.share_id := by
    intro sh hsh
    rw [hshares] at hsh
    obtain ⟨i, hi, hfi⟩ := List.mem_map.1 hsh
    have hin : i < n := List.mem_range.1 hi
    rw [← hfi]
    dsimp only
    exact ⟨by omega, by omega, rfl⟩
  -- the first k shares of the subset
  have htlen : (sub.take k).length = k := by
    rw [List.length_take]
    omega
  have htmem : ∀ sh ∈ sub.take k, sh ∈ shares :=
    fun sh hsh => hmem sh (List.take_subset k sub hsh)
  have htnodup : ((sub.take k).map SecretShare.share_id).Nodup := by
    rw [List.map_take]
    exact (List.take_sublist k (sub.map SecretShare.share_id)).nodup hnodup
  -- identifiers are distinct in the field
  have hids : ∀ (a b : Nat), a < (sub.take k).length → b < (sub.take k).length →
      a ≠ b → (((sub.take k).getD a dfltShare).share_id : ZMod p) ≠
      (((sub.take k).getD b dfltShare).share_id : ZMod p) := by
    intro a b ha hb hab
    rw [List.getD_eq_getElem _ _ ha, List.getD_eq_getElem _ _ hb]
    have hidne : (sub.take k)[a].share_id ≠ (sub.take k)[b].share_id := by
      intro hcontra
      have hla : a < ((sub.take k).map SecretShare.share_id).length := by
        rw [List.length_map]
        omega
      have hlb : b < ((sub.take k).map SecretShare.share_id).length := by
        rw [List.length_map]
        omega
      have h1 : ((sub.take k).map SecretShare.share_id)[a] =
          ((sub.take k).map SecretShare.share_id)[b] := by
        rw [List.getElem_map, List.getElem_map]
        exact hcontra
      exact hab (htnodup.getElem_inj_iff.1 h1)
    have hba : (sub.take k)[a].share_id ≤ n :=
      (hprop _ (htmem _ (List.getElem_mem ha))).2.1
    have hbb : (sub.take k)[b].share_id ≤ n :=
      (hprop _ (htmem _ (List.getElem_mem hb))).2.1
    intro hcast
    have hmodeq := (ZMod.natCast_eq_natCast_iff' _ _ _).1 hcast
    rw [Nat.mod_eq_of_lt (by omega), Nat.mod_eq_of_lt (by omega)] at hmodeq
    exact hidne hmodeq
  -- values are the polynomial evaluations in the field
  have hvals : ∀ (j : Nat), j < (sub.take k).length →
      (((sub.take k).getD j dfltShare).share_value : ZMod p) =
        ((polyVal (ShamirSecretSharing.generate_polynomial ⟨k, n, p⟩
          (bytesToInt secret) randoms)
          ((sub.take k).getD j dfltShare).share_id : Nat) : ZMod p) := by
    intro j hj
    rw [List.getD_eq_getElem _ _ hj]
    have hv := (hprop _ (htmem _ (List.getElem_mem hj))).2.2
    rw [hv, ShamirSecretSharing.evaluate_polynomial_eq]
    exact ZMod.natCast_mod _ _
  have hcore := ShamirSecretSharing.lagrange_core ⟨k, n, p⟩ hp
    (ShamirSecretSharing.generate_polynomial ⟨k, n, p⟩ (bytesToInt secret) randoms)
    (sub.take k) htlen (by rw [hcoeffs, htlen]) hids hvals
  have hhead : (ShamirSecretSharing.generate_polynomial ⟨k, n, p⟩
      (bytesToInt secret) randoms).headD 0 = bytesToInt secret := rfl
  rw [hhead, Nat.mod_eq_of_lt hsec] at hcore
  have hinterp : ShamirSecretSharing.lagrange_interpolation ⟨k, n, p⟩ sub =
      .ok (bytesToInt secret) := by
    rw [← ShamirSecretSharing.lagrange_interpolation_take ⟨k, n, p⟩ sub hsublen]
    exact hcore
  unfold ShamirSecretSharing.reconstruct_secret
  rw [hinterp]
  show intToBytes (bytesToInt secret) secret.length = .ok secret
  unfold intToBytes
  rw [if_neg (Nat.not_le.2 (bytesToInt_lt secret hbytes)),
    natToBytes_roundtrip secret hbytes]

/-- C1: for any secret below the modulus and any valid scheme (prime modulus,
`1 ≤ k ≤ n < p`), reconstructing from any k-sized subset of the n shares
produced by `split_secret`, with the original byte length, returns exactly the
original bytes. -/
theorem c1_split_reconstruct_roundtrip
    (k n p : Nat) (hp : p.Prime) (hk : 1 ≤ k) (hkn : k ≤ n) (hnp : n < p)
    (secret : List Nat) (hbytes : ∀ b ∈ secret, b < 256)
    (hsec : bytesToInt secret < p)
    (randoms : List Nat) (hrand : k - 1 ≤ randoms.length)
    (shares : List SecretShare)
    (hsplit : ShamirSecretSharing.split_secret ⟨k, n, p⟩ secret none randoms =
      .ok shares)
    (sub : List SecretShare) (hmem : ∀ sh ∈ sub, sh ∈ shares)
    (hnodup : (sub.map SecretShare.share_id).Nodup)
    (hsublen : sub.length = k) :
    ShamirSecretSharing.reconstruct_secret ⟨k, n, p⟩ sub secret.length =
      .ok secret :=
  ShamirSecretSharing.reconstruct_subset k n p hp hk hkn hnp secret hbytes hsec
    randoms hrand shares hsplit sub hmem hnodup (by omega)

theorem c1_witness :
    ShamirSecretSharing.reconstruct_secret ⟨2, 3, 17⟩
      [⟨1, 12, "node_1"⟩, ⟨3, 9, "node_3"⟩] 1 = .ok [5] :=
  c1_split_reconstruct_roundtrip 2 3 17 (by decide) (by decide) (by decide)
    (by decide) [5] (by decide) (by decide) [7] (by decide)
    [⟨1, 12, "node_1"⟩, ⟨2, 2, "node_2"⟩, ⟨3, 9, "node_3"⟩] rfl
    [⟨1, 12, "node_1"⟩, ⟨3, 9, "node_3"⟩] (by decide) (by decide) rfl

/-- C5: with more than k valid distinct shares of a single split supplied,
reconstruction uses exactly the first k presented, and any two k-sized subsets
of the same split reconstruct byte-identical secrets. -/
theorem c5_first_k_and_subset_independence
    (k n p : Nat) (hp : p.Prime) (hk : 1 ≤ k) (hkn : k ≤ n) (hnp : n < p)
    (secret : List Nat) (hbytes : ∀ b ∈ secret, b < 256)
    (hsec : bytesToInt secret < p)
    (randoms : List Nat) (hrand : k - 1 ≤ randoms.length)
    (shares : List SecretShare)
    (hsplit : ShamirSecretSharing.split_secret ⟨k, n, p⟩ secret none randoms =
      .ok shares)
    (lst : List SecretShare) (hmem1 : ∀ sh ∈ lst, sh ∈ shares)
    (hnodup1 : (lst.map SecretShare.share_id).Nodup) (hlen1 : k ≤ lst.length)
    (sub2 : List SecretShare) (hmem2 : ∀ sh ∈ sub2, sh ∈ shares)
    (hnodup2 : (sub2.map SecretShare.share_id).Nodup) (hlen2 : sub2.length = k) :
    ShamirSecretSharing.reconstruct_secret ⟨k, n, p⟩ lst secret.length =
      ShamirSecretSharing.reconstruct_secret ⟨k, n, p⟩ (lst.take k) secret.length ∧
    ShamirSecretSharing.reconstruct_secret ⟨k, n, p⟩ lst secret.length =
      ShamirSecretSharing.reconstruct_secret ⟨k, n, p⟩ sub2 secret.length := by
  constructor
  · unfold ShamirSecretSharing.reconstruct_secret
    rw [← ShamirSecretSharing.lagrange_interpolation_take ⟨k, n, p⟩ lst hlen1]
  · rw [ShamirSecretSharing.reconstruct_subset k n p hp hk hkn hnp secret hbytes
      hsec randoms hrand shares hsplit lst hmem1 hnodup1 hlen1,
      ShamirSecretSharing.reconstruct_subset k n p hp hk hkn hnp secret hbytes
      hsec randoms hrand shares hsplit sub2 hmem2 hnodup2 (by omega)]

theorem c5_witness :
    (ShamirSecretSharing.reconstruct_secret ⟨2, 3, 17⟩
      [⟨1, 12, "node_1"⟩, ⟨2, 2, "node_2"⟩, ⟨3, 9, "node_3"⟩] 1 =
      ShamirSecretSharing.reconstruct_secret ⟨2, 3, 17⟩
        ([⟨1, 12, "node_1"⟩, ⟨2, 2, "node_2"⟩, ⟨3, 9, "node_3"⟩].take 2) 1) ∧
    (ShamirSecretSharing.reconstruct_secret ⟨2, 3, 17⟩
      [⟨1, 12, "node_1"⟩, ⟨2, 2, "node_2"⟩, ⟨3, 9, "node_3"⟩] 1 =
      ShamirSecretSharing.reconstruct_secret ⟨2, 3, 17⟩
        [⟨2, 2, "node_2"⟩, ⟨3, 9, "node_3"⟩] 1) :=
  c5_first_k_and_subset_independence 2 3 17 (by decide) (by decide) (by decide)
    (by decide) [5] (by decide) (by decide) [7] (by decide)
    [⟨1, 12, "node_1"⟩, ⟨2, 2, "node_2"⟩, ⟨3, 9, "node_3"⟩] rfl
    [⟨1, 12, "node_1"⟩, ⟨2, 2, "node_2"⟩, ⟨3, 9, "node_3"⟩] (by decide)
    (by decide) (by decide)
    [⟨2, 2, "node_2"⟩, ⟨3, 9, "node_3"⟩] (by decide) (by decide) rfl

/-- C7: for any in-range secret, `split_secret` with no label list returns
exactly `total_shares` shares ordered with indices 1..n, the value of the
share with index i being the secret polynomial evaluated at x = i reduced mod
p (hence in `[0, p)`); a label list of the wrong length is rejected. -/
theorem c7_split_shape (s : ShamirSecretSharing) (secret : List Nat)
    (randoms : List Nat) (hp : 0 < s.prime)
    (hsec : bytesToInt secret < s.prime) :
    (∀ out, s.split_secret secret none randoms = .ok out →
      out.length = s.total_shares ∧
      ∀ (i : Nat), i < out.length →
        (out.getD i dfltShare).share_id = i + 1 ∧
        (out.getD i dfltShare).share_value =
          polyVal (s.generate_polynomial (bytesToInt secret) randoms) (i + 1) %
            s.prime ∧
        (out.getD i dfltShare).share_value < s.prime) ∧
    (∀ ids : List String, ids.length ≠ s.total_shares →
      s.split_secret secret (some ids) randoms = .error .wrongNodeIdCount) := by
  constructor
  · intro out hout
    simp only [ShamirSecretSharing.split_secret, if_neg (Nat.not_le.2 hsec)] at hout
    have hout2 : out = (List.range s.total_shares).map (fun i =>
        ⟨i + 1, s.evaluate_polynomial
          (s.generate_polynomial (bytesToInt secret) randoms) (i + 1),
          "node_" ++ toString (i + 1)⟩) := (Except.ok.inj hout).symm
    subst hout2
    constructor
    · rw [List.length_map, List.length_range]
    · intro i hi
      rw [List.getD_eq_getElem _ _ hi, List.getElem_map, List.getElem_range]
      dsimp only
      refine ⟨rfl, ?_, ?_⟩
      · exact ShamirSecretSharing.evaluate_polynomial_eq s _ _
      · rw [ShamirSecretSharing.evaluate_polynomial_eq]
        exact Nat.mod_lt _ hp
  · intro ids hlen
    simp [ShamirSecretSharing.split_secret, Nat.not_le.2 hsec, hlen]

theorem c7_witness :
    ((∀ out, ShamirSecretSharing.split_secret ⟨2, 3, 17⟩ [5] none [7] = .ok out →
      out.length = 3 ∧
      ∀ (i : Nat), i < out.length →
        (out.getD i dfltShare).share_id = i + 1 ∧
        (out.getD i dfltShare).share_value =
          polyVal (ShamirSecretSharing.generate_polynomial ⟨2, 3, 17⟩
            (bytesToInt [5]) [7]) (i + 1) % 17 ∧
        (out.getD i dfltShare).share_value < 17) ∧
    (∀ ids : List String, ids.length ≠ 3 →
      ShamirSecretSharing.split_secret ⟨2, 3, 17⟩ [5] (some ids) [7] =
        .error .wrongNodeIdCount)) :=
  c7_split_shape ⟨2, 3, 17⟩ [5] [7] (by decide) (by decide)
